import Mathlib

/-!
Verification of the WikiShorts localization-key synchronizer
(WikiFlick/add_localization_key.py) against its specification.

File contents are modelled as lists of characters.  The Python string
operations used by the script (str.splitlines, str.strip, str.startswith,
the substring test `in`, str.endswith, "\n".join) are embedded as
executable Lean functions, and the per-file patching logic
(update_localization_files) is embedded on top of them.  The directory
walk is modelled as a pure pass over a list of directory entries, with
read/write faults made explicit so that the error-containment behaviour
of the try/except block can be stated.
-/

set_option maxHeartbeats 1000000

/-- Characters treated as whitespace by Python str.strip (str.isspace). -/
def pySpace (c : Char) : Bool :=
  (9 ≤ c.toNat && c.toNat ≤ 13) || (28 ≤ c.toNat && c.toNat ≤ 32) ||
  c.toNat == 0x85 || c.toNat == 0xa0 || c.toNat == 0x1680 ||
  (0x2000 ≤ c.toNat && c.toNat ≤ 0x200a) ||
  c.toNat == 0x2028 || c.toNat == 0x2029 || c.toNat == 0x202f ||
  c.toNat == 0x205f || c.toNat == 0x3000

/-- Characters treated as line boundaries by Python str.splitlines. -/
def isLineBreak (c : Char) : Bool :=
  c == '\n' || c == '\r' || c.toNat == 0x0b || c.toNat == 0x0c ||
  c.toNat == 0x1c || c.toNat == 0x1d || c.toNat == 0x1e ||
  c.toNat == 0x85 || c.toNat == 0x2028 || c.toNat == 0x2029

/-- A string free of line-boundary characters (it fits on one line). -/
def bFree (s : List Char) : Bool :=
  s.all (fun c => !isLineBreak c)

/-- Python str.startswith on character lists. -/
def isPre : List Char → List Char → Bool
  | [], _ => true
  | _ :: _, [] => false
  | a :: p, b :: s => a == b && isPre p s

/-- Python substring test (the operator `needle in haystack`). -/
def containsSub (needle : List Char) : List Char → Bool
  | [] => isPre needle []
  | c :: rest => isPre needle (c :: rest) || containsSub needle rest

/-- Drop leading Python whitespace (left half of str.strip). -/
def stripLead (s : List Char) : List Char := s.dropWhile pySpace

/-- Drop trailing Python whitespace (right half of str.strip). -/
def stripTrail (s : List Char) : List Char :=
  (s.reverse.dropWhile pySpace).reverse

/-- Python str.strip with no arguments. -/
def pyStrip (s : List Char) : List Char := stripTrail (stripLead s)

/-- Prepend a character to the first line of a line list (helper for
splitlines: the character extends the current line). -/
def consHead (c : Char) : List (List Char) → List (List Char)
  | [] => [[c]]
  | l :: ls => (c :: l) :: ls

/-- Python str.splitlines: split at line boundaries, treating a CR-LF
pair as a single boundary; a trailing boundary does not produce an
extra empty line. -/
def splitlines : List Char → List (List Char)
  | [] => []
  | [c] => if isLineBreak c then [[]] else [[c]]
  | c :: d :: rest =>
    if c = '\r' ∧ d = '\n' then [] :: splitlines rest
    else if isLineBreak c then [] :: splitlines (d :: rest)
    else consHead c (splitlines (d :: rest))

/-- Python "\n".join on a list of lines. -/
def joinNL : List (List Char) → List Char
  | [] => []
  | [l] => l
  | l :: l' :: ls => l ++ '\n' :: joinNL (l' :: ls)

/-- Python s.endswith("\n"). -/
def endsNL (s : List Char) : Bool := s.getLast? == some '\n'

/-- The quoted form of a string: a double quote, the string, a double
quote (Python f-string `"{s}"`). -/
def quoted (s : List Char) : List Char := '"' :: s ++ ['"']

/-- The canonical localization entry line the script writes:
Python f-string with key and translation, `"key" = "translation";`. -/
def canonicalLine (k tr : List Char) : List Char :=
  quoted k ++ (' ' :: '=' :: ' ' :: quoted tr) ++ [';']

/-- The existing-entry test the script applies to each line:
line.strip().startswith(f-quoted key). -/
def lineMatches (k line : List Char) : Bool :=
  isPre (quoted k) (pyStrip line)

/-- The per-line action of the update branch: a matching line is
replaced by the canonical entry line, any other line is kept. -/
def replaceLine (k tr line : List Char) : List Char :=
  if lineMatches k line then canonicalLine k tr else line

/-- The full text produced by the update branch:
"\n".join of the per-line replaced splitlines. -/
def updateContent (k tr content : List Char) : List Char :=
  joinNL ((splitlines content).map (replaceLine k tr))

/-- The content with a newline appended when it lacks one (Python
lines: if not content.endswith newline, content += newline). -/
def padNL (content : List Char) : List Char :=
  if endsNL content then content else content ++ ['\n']

/-- The full text produced by the append branch: ensure a trailing
newline, then add a blank line, the canonical entry and a newline. -/
def appendContent (k tr content : List Char) : List Char :=
  padNL content ++ ('\n' :: canonicalLine k tr ++ ['\n'])

/-- The action the script reports for one file. -/
inductive FileAction where
  | updated
  | skipped
  | added
deriving DecidableEq

/-- The per-file transformation of update_localization_files: branch on
the substring test for the quoted key; in the update branch skip the
write when the joined text is unchanged.  Returns the reported action
and the resulting file content. -/
def processContent (k tr content : List Char) : FileAction × List Char :=
  if containsSub (quoted k) content then
    if updateContent k tr content = content then (FileAction.skipped, content)
    else (FileAction.updated, updateContent k tr content)
  else (FileAction.added, appendContent k tr content)

/-- The key the script adds (Python global key). -/
def keyChars : List Char := "continue_without_pro".data

/-- The English fallback translation (Python global fallback_translation). -/
def fallbackChars : List Char := "Continue without WikiShorts Pro".data

/-- A translation table: association list from language code to
translated string (Python dict; keys unique). -/
abbrev Table := List (List Char × List Char)

/-- Python translations dict lookup (dict.get: some value or none). -/
def tGet : Table → List Char → Option (List Char)
  | [], _ => none
  | (k, v) :: rest, q => if q = k then some v else tGet rest q

/-- Python `a or b` where a is an optional string: a missing or empty
(falsy) left operand yields the right operand. -/
def pyOrStr (a : Option (List Char)) (b : List Char) : List Char :=
  match a with
  | none => b
  | some s => if s = [] then b else s

/-- The translation table of the script. -/
def translations : Table :=
  [("en".data, "Continue without WikiShorts Pro".data),
   ("tr".data, "WikiShorts Pro olmadan devam et".data),
   ("es".data, "Continuar sin WikiShorts Pro".data),
   ("fr".data, "Continuer sans WikiShorts Pro".data),
   ("de".data, "Weiter ohne WikiShorts Pro".data),
   ("it".data, "Continua senza WikiShorts Pro".data),
   ("pt".data, "Continuar sem WikiShorts Pro".data),
   ("ru".data, "Продолжить без WikiShorts Pro".data),
   ("ja".data, "WikiShorts Proなしで続行".data),
   ("ko".data, "WikiShorts Pro 없이 계속".data),
   ("zh".data, "继续而不使用 WikiShorts Pro".data),
   ("ar".data, "الاستمرار بدون WikiShorts Pro".data),
   ("hi".data, "WikiShorts Pro के बिना जारी रखें".data),
   ("nl".data, "Doorgaan zonder WikiShorts Pro".data),
   ("sv".data, "Fortsätt utan WikiShorts Pro".data),
   ("no".data, "Fortsett uten WikiShorts Pro".data),
   ("da".data, "Fortsæt uden WikiShorts Pro".data),
   ("fi".data, "Jatka ilman WikiShorts Pro:ta".data),
   ("pl".data, "Kontynuuj bez WikiShorts Pro".data),
   ("el".data, "Συνέχεια χωρίς WikiShorts Pro".data),
   ("he".data, "המשך ללא WikiShorts Pro".data),
   ("id".data, "Lanjutkan tanpa WikiShorts Pro".data),
   ("ms".data, "Teruskan tanpa WikiShorts Pro".data),
   ("th".data, "ดำเนินการต่อโดยไม่มี WikiShorts Pro".data),
   ("vi".data, "Tiếp tục mà không có WikiShorts Pro".data),
   ("cs".data, "Pokračovat bez WikiShorts Pro".data),
   ("hu".data, "Folytatás WikiShorts Pro nélkül".data),
   ("ro".data, "Continuă fără WikiShorts Pro".data),
   ("uk".data, "Продовжити без WikiShorts Pro".data),
   ("hr".data, "Nastavi bez WikiShorts Pro".data),
   ("sk".data, "Pokračovať bez WikiShorts Pro".data),
   ("bg".data, "Продължи без WikiShorts Pro".data),
   ("sr".data, "Настави без WikiShorts Pro".data),
   ("ca".data, "Continua sense WikiShorts Pro".data),
   ("lt".data, "Tęsti be WikiShorts Pro".data),
   ("sl".data, "Nadaljuj brez WikiShorts Pro".data),
   ("et".data, "Jätka ilma WikiShorts Prota".data),
   ("lv".data, "Turpināt bez WikiShorts Pro".data)]

/-- Language code derived by the script from a directory entry name:
Python item.split(".")[0], the part before the first dot. -/
def langCodeOf (item : List Char) : List Char :=
  item.takeWhile (fun ch => ch != '.')

/-- Language code as the specification words it.  Modelled from the
spec: the entry name with the bundle suffix stripped, everything before
the suffix even if the name contains additional dots. -/
def langCodeSpec (item : List Char) : List Char :=
  item.take (item.length - ".lproj".data.length)

/-- Simplified (region-stripped) code: Python lang_code.split("-")[0]. -/
def simpleCode (lc : List Char) : List Char :=
  lc.takeWhile (fun ch => ch != '-')

/-- Resolved translation for a language code: Python
translations.get(lang_code) or translations.get(simple) or fallback. -/
def resolveTranslation (t : Table) (fb lc : List Char) : List Char :=
  pyOrStr (tGet t lc) (pyOrStr (tGet t (simpleCode lc)) fb)

/-- The bundle-directory suffix ".lproj". -/
def lprojChars : List Char := ".lproj".data

/-- Python item.endswith(suffix). -/
def endsWith (sfx s : List Char) : Bool := isPre sfx.reverse s.reverse

/-- State of one resource file on disk: its content and whether the
read and the write system calls succeed (fault model for the
try/except block). -/
structure FileSys where
  content : List Char
  readOk : Bool
  writeOk : Bool
deriving DecidableEq

/-- One entry of the base directory: its name, and the resource file
inside it when os.path.exists finds one. -/
structure Entry where
  name : List Char
  file : Option FileSys
deriving DecidableEq

/-- The observable outcome of the loop body for one directory entry. -/
inductive Outcome where
  | notBundle
  | missingFile
  | errored (lang : List Char)
  | updatedOut (lang : List Char)
  | skippedOut (lang : List Char)
  | addedOut (lang : List Char)
deriving DecidableEq

/-- The fallible part of the loop body (the try block): read the file,
transform the content, write unless the skip branch was taken.  A read
fault, or a write fault on a branch that writes, raises (none). -/
def attempt (tr : List Char) (fs : FileSys) : Option FileAction :=
  if !fs.readOk then none
  else
    let a := (processContent keyChars tr fs.content).1
    match a with
    | FileAction.skipped => some FileAction.skipped
    | _ => if fs.writeOk then some a else none

/-- The loop body of update_localization_files for one directory
entry: filter on the bundle suffix, resolve the translation, skip a
missing file, and catch any fault of the try block as an error
outcome that carries the language code. -/
def processEntry (t : Table) (fb : List Char) (e : Entry) : Outcome :=
  if !endsWith lprojChars e.name then Outcome.notBundle
  else
    match e.file with
    | none => Outcome.missingFile
    | some fs =>
      match attempt (resolveTranslation t fb (langCodeOf e.name)) fs with
      | none => Outcome.errored (langCodeOf e.name)
      | some FileAction.updated => Outcome.updatedOut (langCodeOf e.name)
      | some FileAction.skipped => Outcome.skippedOut (langCodeOf e.name)
      | some FileAction.added => Outcome.addedOut (langCodeOf e.name)

/-- Outcomes that increment the script counter (count += 1 runs at the
end of a try block that completed). -/
def isSuccess : Outcome → Bool
  | Outcome.updatedOut _ => true
  | Outcome.skippedOut _ => true
  | Outcome.addedOut _ => true
  | _ => false

/-- Number of list elements satisfying a Boolean predicate (the
running counter of the loop). -/
def countTrue (p : α → Bool) : List α → Nat
  | [] => 0
  | a :: rest => (if p a then 1 else 0) + countTrue p rest

/-- The whole run of update_localization_files over the directory
listing: one outcome per entry, plus the final counter. -/
def runSync (t : Table) (fb : List Char) (entries : List Entry) :
    List Outcome × Nat :=
  let outs := entries.map (processEntry t fb)
  (outs, countTrue isSuccess outs)

/-- Whether a bundle entry counts for the final summary: its resource
file exists and the try block completed without a fault. -/
def processedOk (t : Table) (fb : List Char) (e : Entry) : Bool :=
  match e.file with
  | none => false
  | some fs =>
    (attempt (resolveTranslation t fb (langCodeOf e.name)) fs).isSome

example : splitlines "a\r\nb\n\nc".data = ["a".data, "b".data, [], "c".data] := by decide
example : splitlines "a\n".data = ["a".data] := by decide
example : joinNL ["a".data, [], "c".data] = "a\n\nc".data := by decide
example : pyStrip "  x ".data = "x".data := by decide
example : containsSub "ab".data "xaby".data = true := by decide
example : containsSub "ab".data "xay".data = false := by decide
example : endsWith lprojChars "pt-BR.lproj".data = true := by decide
example : langCodeOf "pt-BR.lproj".data = "pt-BR".data := by decide
example : simpleCode "pt-BR".data = "pt".data := by decide
example : resolveTranslation translations fallbackChars "pt-BR".data =
    "Continuar sem WikiShorts Pro".data := by decide

/-- A successful startswith test is exactly a prefix decomposition. -/
theorem isPre_iff (p s : List Char) : isPre p s = true ↔ ∃ t, s = p ++ t := by
  induction p generalizing s with
  | nil => simp [isPre]
  | cons a p ih =>
    cases s with
    | nil =>
      simp [isPre]
    | cons b s =>
      simp only [isPre, Bool.and_eq_true, beq_iff_eq]
      constructor
      · rintro ⟨rfl, h⟩
        obtain ⟨t, rfl⟩ := (ih s).1 h
        exact ⟨t, rfl⟩
      · rintro ⟨t, h⟩
        rw [List.cons_append] at h
        injection h with h1 h2
        exact ⟨h1.symm, (ih s).2 ⟨t, h2⟩⟩

/-- A list starts with itself followed by anything. -/
theorem isPre_self_append (p t : List Char) : isPre p (p ++ t) = true :=
  (isPre_iff p (p ++ t)).2 ⟨t, rfl⟩

/-- A successful substring test is exactly an inner decomposition. -/
theorem containsSub_iff (q s : List Char) :
    containsSub q s = true ↔ ∃ u v, s = u ++ q ++ v := by
  induction s with
  | nil =>
    simp only [containsSub, isPre_iff]
    constructor
    · rintro ⟨t, h⟩
      exact ⟨[], t, by simpa using h⟩
    · rintro ⟨u, v, h⟩
      rcases List.append_eq_nil.1 ((List.append_eq_nil.1 h.symm).1).symm.symm with _
      refine ⟨v, ?_⟩
      have hu : u = [] := (List.append_eq_nil.1 (List.append_eq_nil.1 h.symm).1).1
      have hq : q ++ v = [] := by
        have := List.append_eq_nil.1 h.symm
        simpa [hu] using h.symm
      simp [List.append_eq_nil.1 hq]
  | cons c s ih =>
    simp only [containsSub, Bool.or_eq_true, ih, isPre_iff]
    constructor
    · rintro (⟨t, h⟩ | ⟨u, v, h⟩)
      · exact ⟨[], t, by simpa using h⟩
      · exact ⟨c :: u, v, by simp [h]⟩
    · rintro ⟨u, v, h⟩
      cases u with
      | nil => exact Or.inl ⟨v, by simpa using h⟩
      | cons u0 u =>
        rw [List.cons_append, List.cons_append] at h
        injection h with h1 h2
        exact Or.inr ⟨u, v, h2⟩

/-- dropWhile removes a prefix of the list. -/
theorem dropWhile_sub (p : Char → Bool) (l : List Char) :
    ∃ a, l = a ++ l.dropWhile p := by
  induction l with
  | nil => exact ⟨[], rfl⟩
  | cons c t ih =>
    by_cases h : p c
    · obtain ⟨a, ha⟩ := ih
      refine ⟨c :: a, ?_⟩
      rw [List.dropWhile_cons, if_pos h, List.cons_append, ← ha]
    · exact ⟨[], by rw [List.dropWhile_cons, if_neg h, List.nil_append]⟩

/-- stripTrail removes a suffix of the list. -/
theorem stripTrail_sub (l : List Char) : ∃ b, l = stripTrail l ++ b := by
  obtain ⟨a, ha⟩ := dropWhile_sub pySpace l.reverse
  refine ⟨a.reverse, ?_⟩
  have : l.reverse.reverse = (a ++ l.reverse.dropWhile pySpace).reverse := by rw [← ha]
  simpa [stripTrail, List.reverse_append] using this

/-- pyStrip removes a prefix and a suffix of the list. -/
theorem pyStrip_sub (l : List Char) : ∃ a b, l = a ++ pyStrip l ++ b := by
  obtain ⟨a, ha⟩ := dropWhile_sub pySpace l
  obtain ⟨b, hb⟩ := stripTrail_sub (stripLead l)
  refine ⟨a, b, ?_⟩
  rw [List.append_assoc, pyStrip, ← hb, stripLead]
  exact ha

/-- A line that passes the existing-entry test contains the quoted key
as a substring. -/
theorem match_sub {k line : List Char} (h : lineMatches k line = true) :
    ∃ a b, line = a ++ quoted k ++ b := by
  obtain ⟨t, ht⟩ := (isPre_iff _ _).1 h
  obtain ⟨a, b, hab⟩ := pyStrip_sub line
  exact ⟨a, t ++ b, by rw [hab, ht]; simp [List.append_assoc]⟩

/-- getLast? of an append with nonempty right part. -/
theorem getLast?_right {α : Type} (l m : List α) (h : m ≠ []) :
    (l ++ m).getLast? = m.getLast? := by
  rcases List.eq_nil_or_concat m with rfl | ⟨L, b, rfl⟩
  · exact absurd rfl h
  · rw [List.concat_eq_append, ← List.append_assoc, List.getLast?_concat,
      List.getLast?_concat]

/-- The element reported by getLast? is a member. -/
theorem getLast?_mem' {α : Type} : ∀ (l : List α) (a : α),
    l.getLast? = some a → a ∈ l
  | [], a, h => by simp [List.getLast?] at h
  | [b], a, h => by
    simp only [List.getLast?_singleton, Option.some.injEq] at h
    simp [h]
  | b :: c :: t, a, h => by
    rw [List.getLast?_cons_cons] at h
    exact List.mem_cons_of_mem _ (getLast?_mem' (c :: t) a h)

/-- Removing a final character not occurring in the pattern keeps a
substring decomposition. -/
theorem sub_concat_drop {q x : List Char} {c : Char} (hq : q ≠ []) (hc : c ∉ q)
    (h : ∃ a b, x ++ [c] = a ++ q ++ b) : ∃ a b, x = a ++ q ++ b := by
  obtain ⟨a, b, h⟩ := h
  rcases List.eq_nil_or_concat b with rfl | ⟨b', c', rfl⟩
  · rw [List.append_nil] at h
    exfalso
    apply hc
    have hlast : (a ++ q).getLast? = some c := by
      rw [← h]; exact List.getLast?_concat _
    rw [getLast?_right a q hq] at hlast
    exact getLast?_mem' q c hlast
  · rw [List.concat_eq_append, ← List.append_assoc] at h
    obtain ⟨h1, -⟩ := List.append_inj' h rfl
    exact ⟨a, b', by rw [h1, List.append_assoc]⟩

/-- The quoted form of a string is never empty. -/
theorem quoted_ne_nil (s : List Char) : quoted s ≠ [] := by simp [quoted]

/-- The canonical line regrouped as quoted key followed by a tail. -/
theorem canonical_eq (k tr : List Char) :
    canonicalLine k tr = quoted k ++ ((' ' :: '=' :: ' ' :: quoted tr) ++ [';']) := by
  rw [canonicalLine, List.append_assoc]

/-- The canonical line ends with its semicolon. -/
theorem canonical_getLast (k tr : List Char) :
    (canonicalLine k tr).getLast? = some ';' := by
  rw [canonicalLine]; exact List.getLast?_concat _

/-- The canonical line is nonempty. -/
theorem canonical_ne_nil (k tr : List Char) : canonicalLine k tr ≠ [] := by
  rw [canonical_eq]
  simp [quoted]

/-- Stripping leading whitespace from a string with a non-space head
changes nothing. -/
theorem stripLead_cons_of_nonspace {c : Char} (t : List Char)
    (h : pySpace c = false) : stripLead (c :: t) = c :: t := by
  rw [stripLead, List.dropWhile_cons, h]
  simp

/-- Stripping trailing whitespace from a string with a non-space last
character changes nothing. -/
theorem stripTrail_concat_of_nonspace {c : Char} (t : List Char)
    (h : pySpace c = false) : stripTrail (t ++ [c]) = t ++ [c] := by
  rw [stripTrail, List.reverse_append]
  simp only [List.reverse_cons, List.reverse_nil, List.nil_append,
    List.singleton_append, List.dropWhile_cons, h]
  simp

/-- The canonical line is unchanged by Python strip. -/
theorem pyStrip_canonical (k tr : List Char) :
    pyStrip (canonicalLine k tr) = canonicalLine k tr := by
  have h1 : stripLead (canonicalLine k tr) = canonicalLine k tr := by
    have : canonicalLine k tr = '"' :: ((k ++ ['"']) ++
        ((' ' :: '=' :: ' ' :: quoted tr) ++ [';'])) := by
      rw [canonical_eq, quoted]
      simp
    rw [this]
    exact stripLead_cons_of_nonspace _ (by decide)
  rw [pyStrip, h1, canonicalLine]
  exact stripTrail_concat_of_nonspace _ (by decide)

/-- The canonical line itself passes the existing-entry test. -/
theorem canonical_matches (k tr : List Char) :
    lineMatches k (canonicalLine k tr) = true := by
  rw [lineMatches, pyStrip_canonical, canonical_eq]
  exact isPre_self_append _ _

/-- The canonical line has no line-boundary characters when the quoted
key and the translation have none. -/
theorem canonical_bFree {k tr : List Char} (hk : bFree (quoted k) = true)
    (htr : bFree tr = true) : bFree (canonicalLine k tr) = true := by
  rw [canonicalLine]
  simp only [bFree, quoted, List.all_append, List.all_cons] at hk htr ⊢
  simp_all
  decide

/-- Unfolding equation of splitlines for the two-or-more case. -/
theorem splitlines_cons_cons (c d : Char) (rest : List Char) :
    splitlines (c :: d :: rest) =
      if c = '\r' ∧ d = '\n' then [] :: splitlines rest
      else if isLineBreak c then [] :: splitlines (d :: rest)
      else consHead c (splitlines (d :: rest)) := by
  rw [splitlines]

/-- Unfolding equation of splitlines for the one-character case. -/
theorem splitlines_single (c : Char) :
    splitlines [c] = if isLineBreak c then [[]] else [[c]] := by
  rw [splitlines]

/-- consHead never yields the empty list of lines. -/
theorem consHead_ne_nil (c : Char) (ls : List (List Char)) :
    consHead c ls ≠ [] := by
  cases ls <;> simp [consHead]

/-- splitlines of a nonempty string is a nonempty list of lines. -/
theorem splitlines_ne_nil : ∀ (c : List Char), c ≠ [] → splitlines c ≠ [] := by
  intro c h
  match c with
  | [] => exact absurd rfl h
  | [a] =>
    rw [splitlines_single]
    split <;> simp
  | a :: b :: rest =>
    rw [splitlines_cons_cons]
    split
    · simp
    · split
      · simp
      · exact consHead_ne_nil _ _

/-- The first line of splitlines is a prefix of the string. -/
theorem first_line_pre : ∀ (c : List Char), c ≠ [] →
    ∃ l ls v, splitlines c = l :: ls ∧ c = l ++ v := by
  intro c
  induction c using splitlines.induct with
  | case1 => intro h; exact absurd rfl h
  | case2 c hb =>
    intro _
    exact ⟨[], [], [c], by rw [splitlines_single, if_pos hb], rfl⟩
  | case3 c hb =>
    intro _
    exact ⟨[c], [], [], by rw [splitlines_single, if_neg hb], by simp⟩
  | case4 c d rest hcd ih =>
    intro _
    obtain ⟨rfl, rfl⟩ := hcd
    exact ⟨[], splitlines rest, '\r' :: '\n' :: rest,
      by rw [splitlines_cons_cons, if_pos ⟨rfl, rfl⟩], rfl⟩
  | case5 c d rest hcd hb ih =>
    intro _
    exact ⟨[], splitlines (d :: rest), c :: d :: rest,
      by rw [splitlines_cons_cons, if_neg hcd, if_pos hb], rfl⟩
  | case6 c d rest hcd hb ih =>
    intro _
    obtain ⟨l, ls, v, hs, hv⟩ := ih (by simp)
    refine ⟨c :: l, ls, v, ?_, ?_⟩
    · rw [splitlines_cons_cons, if_neg hcd, if_neg hb, hs, consHead]
    · simp only [List.cons_append]
      rw [← hv]

/-- Every line of splitlines occurs as a substring of the string. -/
theorem mem_splitlines_sub : ∀ (c l : List Char), l ∈ splitlines c →
    ∃ u v, c = u ++ l ++ v := by
  intro c
  induction c using splitlines.induct with
  | case1 =>
    intro l h
    simp [splitlines] at h
  | case2 c hb =>
    intro l h
    rw [splitlines_single, if_pos hb, List.mem_singleton] at h
    exact ⟨[], [c], by simp [h]⟩
  | case3 c hb =>
    intro l h
    rw [splitlines_single, if_neg hb, List.mem_singleton] at h
    exact ⟨[], [], by simp [h]⟩
  | case4 c d rest hcd ih =>
    intro l h
    obtain ⟨rfl, rfl⟩ := hcd
    rw [splitlines_cons_cons, if_pos ⟨rfl, rfl⟩] at h
    rcases List.mem_cons.1 h with rfl | h
    · exact ⟨[], '\r' :: '\n' :: rest, by simp⟩
    · obtain ⟨u, v, huv⟩ := ih l h
      refine ⟨'\r' :: '\n' :: u, v, ?_⟩
      simp only [List.cons_append, List.append_assoc]
      rw [show u ++ (l ++ v) = u ++ l ++ v from (List.append_assoc u l v).symm,
        ← huv]
  | case5 c d rest hcd hb ih =>
    intro l h
    rw [splitlines_cons_cons, if_neg hcd, if_pos hb] at h
    rcases List.mem_cons.1 h with rfl | h
    · exact ⟨[], c :: d :: rest, by simp⟩
    · obtain ⟨u, v, huv⟩ := ih l h
      refine ⟨c :: u, v, ?_⟩
      simp only [List.cons_append, List.append_assoc]
      rw [show u ++ (l ++ v) = u ++ l ++ v from (List.append_assoc u l v).symm,
        ← huv]
  | case6 c d rest hcd hb ih =>
    intro l h
    rw [splitlines_cons_cons, if_neg hcd, if_neg hb] at h
    obtain ⟨S0, S1, hS⟩ : ∃ S0 S1, splitlines (d :: rest) = S0 :: S1 := by
      cases hS : splitlines (d :: rest) with
      | nil => exact absurd hS (splitlines_ne_nil _ (by simp))
      | cons S0 S1 => exact ⟨S0, S1, rfl⟩
    rw [hS, consHead] at h
    rcases List.mem_cons.1 h with rfl | h
    · obtain ⟨l0, ls0, v, hs0, hv⟩ := first_line_pre (d :: rest) (by simp)
      rw [hS] at hs0
      injection hs0 with h1 h2
      refine ⟨[], v, ?_⟩
      simp only [List.nil_append, List.cons_append]
      rw [h1, ← hv]
    · obtain ⟨u, v, huv⟩ := ih l (by rw [hS]; exact List.mem_cons_of_mem _ h)
      refine ⟨c :: u, v, ?_⟩
      simp only [List.cons_append, List.append_assoc]
      rw [show u ++ (l ++ v) = u ++ l ++ v from (List.append_assoc u l v).symm,
        ← huv]

/-- Every line of splitlines is free of line-boundary characters. -/
theorem mem_splitlines_bFree : ∀ (c l : List Char), l ∈ splitlines c →
    bFree l = true := by
  intro c
  induction c using splitlines.induct with
  | case1 =>
    intro l h
    simp [splitlines] at h
  | case2 c hb =>
    intro l h
    rw [splitlines_single, if_pos hb, List.mem_singleton] at h
    simp [h, bFree]
  | case3 c hb =>
    intro l h
    rw [splitlines_single, if_neg hb, List.mem_singleton] at h
    have hb' : isLineBreak c = false := by simpa using hb
    simp [h, bFree, hb']
  | case4 c d rest hcd ih =>
    intro l h
    obtain ⟨rfl, rfl⟩ := hcd
    rw [splitlines_cons_cons, if_pos ⟨rfl, rfl⟩] at h
    rcases List.mem_cons.1 h with rfl | h
    · simp [bFree]
    · exact ih l h
  | case5 c d rest hcd hb ih =>
    intro l h
    rw [splitlines_cons_cons, if_neg hcd, if_pos hb] at h
    rcases List.mem_cons.1 h with rfl | h
    · simp [bFree]
    · exact ih l h
  | case6 c d rest hcd hb ih =>
    intro l h
    rw [splitlines_cons_cons, if_neg hcd, if_neg hb] at h
    obtain ⟨S0, S1, hS⟩ : ∃ S0 S1, splitlines (d :: rest) = S0 :: S1 := by
      cases hS : splitlines (d :: rest) with
      | nil => exact absurd hS (splitlines_ne_nil _ (by simp))
      | cons S0 S1 => exact ⟨S0, S1, rfl⟩
    rw [hS, consHead] at h
    have hb' : isLineBreak c = false := by simpa using hb
    rcases List.mem_cons.1 h with rfl | h
    · have h0 : bFree S0 = true := ih S0 (by rw [hS]; exact List.mem_cons_self _ _)
      simp only [bFree, List.all_cons, Bool.and_eq_true] at h0 ⊢
      exact ⟨by simp [hb'], h0⟩
    · exact ih l (by rw [hS]; exact List.mem_cons_of_mem _ h)

/-- bFree unfolded over a cons cell. -/
theorem bFree_cons_iff {c : Char} {l : List Char} :
    bFree (c :: l) = true ↔ isLineBreak c = false ∧ bFree l = true := by
  simp only [bFree, List.all_cons, Bool.and_eq_true, Bool.not_eq_true',
    and_congr_left_iff]

/-- A boundary-free nonempty prefix of the string is a prefix of the
first line of splitlines. -/
theorem pre_first_line : ∀ (c : List Char), ∀ (q t : List Char),
    bFree q = true → q ≠ [] → c = q ++ t →
    ∃ l ls, splitlines c = l :: ls ∧ ∃ t2, l = q ++ t2 := by
  intro c
  induction c using splitlines.induct with
  | case1 =>
    intro q t hf hq h
    cases q with
    | nil => exact absurd rfl hq
    | cons q0 q' => simp at h
  | case2 c hb =>
    intro q t hf hq h
    cases q with
    | nil => exact absurd rfl hq
    | cons q0 q' =>
      rw [List.cons_append] at h
      injection h with h1 h2
      subst h1
      exact absurd hb (by simp [(bFree_cons_iff.1 hf).1])
  | case3 c hb =>
    intro q t hf hq h
    cases q with
    | nil => exact absurd rfl hq
    | cons q0 q' =>
      rw [List.cons_append] at h
      injection h with h1 h2
      subst h1
      obtain ⟨hq', ht⟩ := List.append_eq_nil.1 h2.symm
      subst hq'
      subst ht
      exact ⟨[c], [], by rw [splitlines_single, if_neg hb], [], by simp⟩
  | case4 c d rest hcd ih =>
    intro q t hf hq h
    obtain ⟨rfl, rfl⟩ := hcd
    cases q with
    | nil => exact absurd rfl hq
    | cons q0 q' =>
      rw [List.cons_append] at h
      injection h with h1 h2
      subst h1
      exact absurd (bFree_cons_iff.1 hf).1 (by decide)
  | case5 c d rest hcd hb ih =>
    intro q t hf hq h
    cases q with
    | nil => exact absurd rfl hq
    | cons q0 q' =>
      rw [List.cons_append] at h
      injection h with h1 h2
      subst h1
      exact absurd hb (by simp [(bFree_cons_iff.1 hf).1])
  | case6 c d rest hcd hb ih =>
    intro q t hf hq h
    cases q with
    | nil => exact absurd rfl hq
    | cons q0 q' =>
      rw [List.cons_append] at h
      injection h with h1 h2
      subst h1
      cases q' with
      | nil =>
        obtain ⟨S0, S1, hS⟩ : ∃ S0 S1, splitlines (d :: rest) = S0 :: S1 := by
          cases hS : splitlines (d :: rest) with
          | nil => exact absurd hS (splitlines_ne_nil _ (by simp))
          | cons S0 S1 => exact ⟨S0, S1, rfl⟩
        refine ⟨c :: S0, S1, ?_, S0, by simp⟩
        rw [splitlines_cons_cons, if_neg hcd, if_neg hb, hS, consHead]
      | cons q1 q'' =>
        obtain ⟨l, ls, hs, t2, hl⟩ :=
          ih (q1 :: q'') t (bFree_cons_iff.1 hf).2 (by simp) h2
        refine ⟨c :: l, ls, ?_, t2, ?_⟩
        · rw [splitlines_cons_cons, if_neg hcd, if_neg hb, hs, consHead]
        · rw [hl]
          rfl

/-- A boundary-free nonempty substring of the string is a substring of
some line of splitlines. -/
theorem sub_line : ∀ (c : List Char), ∀ (q u v : List Char),
    bFree q = true → q ≠ [] → c = u ++ q ++ v →
    ∃ l, l ∈ splitlines c ∧ ∃ a b, l = a ++ q ++ b := by
  intro c
  induction c using splitlines.induct with
  | case1 =>
    intro q u v hf hq h
    rcases List.append_eq_nil.1 h.symm with ⟨h1, -⟩
    rcases List.append_eq_nil.1 h1 with ⟨-, h2⟩
    exact absurd h2 hq
  | case2 c hb =>
    intro q u v hf hq h
    cases u with
    | nil =>
      rw [List.nil_append] at h
      cases q with
      | nil => exact absurd rfl hq
      | cons q0 q' =>
        rw [List.cons_append] at h
        injection h with h1 h2
        subst h1
        exact absurd hb (by simp [(bFree_cons_iff.1 hf).1])
    | cons u0 u' =>
      rw [List.cons_append, List.cons_append] at h
      injection h with h1 h2
      rcases List.append_eq_nil.1 h2.symm with ⟨h3, -⟩
      rcases List.append_eq_nil.1 h3 with ⟨-, h4⟩
      exact absurd h4 hq
  | case3 c hb =>
    intro q u v hf hq h
    cases u with
    | nil =>
      rw [List.nil_append] at h
      cases q with
      | nil => exact absurd rfl hq
      | cons q0 q' =>
        rw [List.cons_append] at h
        injection h with h1 h2
        subst h1
        obtain ⟨hq', hv⟩ := List.append_eq_nil.1 h2.symm
        subst hq'
        refine ⟨[c], ?_, [], [], by simp⟩
        rw [splitlines_single, if_neg hb]
        simp
    | cons u0 u' =>
      rw [List.cons_append, List.cons_append] at h
      injection h with h1 h2
      rcases List.append_eq_nil.1 h2.symm with ⟨h3, -⟩
      rcases List.append_eq_nil.1 h3 with ⟨-, h4⟩
      exact absurd h4 hq
  | case4 c d rest hcd ih =>
    intro q u v hf hq h
    obtain ⟨rfl, rfl⟩ := hcd
    cases u with
    | nil =>
      rw [List.nil_append] at h
      cases q with
      | nil => exact absurd rfl hq
      | cons q0 q' =>
        rw [List.cons_append] at h
        injection h with h1 h2
        subst h1
        exact absurd (bFree_cons_iff.1 hf).1 (by decide)
    | cons u0 u' =>
      rw [List.cons_append, List.cons_append] at h
      injection h with h1 h2
      cases u' with
      | nil =>
        rw [List.nil_append] at h2
        cases q with
        | nil => exact absurd rfl hq
        | cons q0 q' =>
          rw [List.cons_append] at h2
          injection h2 with h3 h4
          subst h3
          exact absurd (bFree_cons_iff.1 hf).1 (by decide)
      | cons u1 u'' =>
        rw [List.cons_append] at h2
        injection h2 with h3 h4
        obtain ⟨l, hl, a, b, hab⟩ := ih q u'' v hf hq h4
        refine ⟨l, ?_, a, b, hab⟩
        rw [splitlines_cons_cons, if_pos ⟨rfl, rfl⟩]
        exact List.mem_cons_of_mem _ hl
  | case5 c d rest hcd hb ih =>
    intro q u v hf hq h
    cases u with
    | nil =>
      rw [List.nil_append] at h
      cases q with
      | nil => exact absurd rfl hq
      | cons q0 q' =>
        rw [List.cons_append] at h
        injection h with h1 h2
        subst h1
        exact absurd hb (by simp [(bFree_cons_iff.1 hf).1])
    | cons u0 u' =>
      rw [List.cons_append, List.cons_append] at h
      injection h with h1 h2
      obtain ⟨l, hl, a, b, hab⟩ := ih q u' v hf hq h2
      refine ⟨l, ?_, a, b, hab⟩
      rw [splitlines_cons_cons, if_neg hcd, if_pos hb]
      exact List.mem_cons_of_mem _ hl
  | case6 c d rest hcd hb ih =>
    intro q u v hf hq h
    cases u with
    | nil =>
      rw [List.nil_append] at h
      obtain ⟨l, ls, hs, t2, hl⟩ := pre_first_line _ q v hf hq h
      exact ⟨l, by rw [hs]; exact List.mem_cons_self _ _, [], t2, by simp [hl]⟩
    | cons u0 u' =>
      rw [List.cons_append, List.cons_append] at h
      injection h with h1 h2
      obtain ⟨l, hl, a, b, hab⟩ := ih q u' v hf hq h2
      obtain ⟨S0, S1, hS⟩ : ∃ S0 S1, splitlines (d :: rest) = S0 :: S1 := by
        cases hS : splitlines (d :: rest) with
        | nil => exact absurd hS (splitlines_ne_nil _ (by simp))
        | cons S0 S1 => exact ⟨S0, S1, rfl⟩
      rw [hS] at hl
      have hsplit : splitlines (c :: d :: rest) = (c :: S0) :: S1 := by
        rw [splitlines_cons_cons, if_neg hcd, if_neg hb, hS, consHead]
      rcases List.mem_cons.1 hl with rfl | hl
      · exact ⟨c :: l, by rw [hsplit]; exact List.mem_cons_self _ _,
          c :: a, b, by rw [hab]; rfl⟩
      · exact ⟨l, by rw [hsplit]; exact List.mem_cons_of_mem _ hl, a, b, hab⟩

/-- Unfolding equation of joinNL for a cons with nonempty tail. -/
theorem joinNL_cons (l : List Char) (ls : List (List Char)) (h : ls ≠ []) :
    joinNL (l :: ls) = l ++ '\n' :: joinNL ls := by
  cases ls with
  | nil => exact absurd rfl h
  | cons l' ls' => rw [joinNL]

/-- splitlines splits off a boundary-free first line at its newline. -/
theorem splitlines_nl : ∀ (l rest : List Char), bFree l = true →
    splitlines (l ++ '\n' :: rest) = l :: splitlines rest := by
  intro l
  induction l with
  | nil =>
    intro rest _
    rw [List.nil_append]
    cases rest with
    | nil =>
      rw [splitlines_single, if_pos (by decide)]
      rfl
    | cons d t =>
      rw [splitlines_cons_cons,
        if_neg (by rintro ⟨h, -⟩; exact absurd h (by decide)),
        if_pos (by decide)]
  | cons c l' ih =>
    intro rest hf
    obtain ⟨hc, hf'⟩ := bFree_cons_iff.1 hf
    rw [List.cons_append]
    cases hsh : l' ++ '\n' :: rest with
    | nil => exact absurd hsh (by simp)
    | cons d t =>
      have hcd : ¬(c = '\r' ∧ d = '\n') := by
        rintro ⟨rfl, -⟩
        exact absurd hc (by decide)
      rw [splitlines_cons_cons, if_neg hcd, if_neg (by simp [hc]), ← hsh,
        ih rest hf', consHead]

/-- splitlines of one boundary-free nonempty line is that line. -/
theorem splitlines_one : ∀ (l : List Char), bFree l = true → l ≠ [] →
    splitlines l = [l] := by
  intro l
  induction l with
  | nil => intro _ h; exact absurd rfl h
  | cons c l' ih =>
    intro hf _
    obtain ⟨hc, hf'⟩ := bFree_cons_iff.1 hf
    cases l' with
    | nil => rw [splitlines_single, if_neg (by simp [hc])]
    | cons d t =>
      have hcd : ¬(c = '\r' ∧ d = '\n') := by
        rintro ⟨rfl, -⟩
        exact absurd hc (by decide)
      rw [splitlines_cons_cons, if_neg hcd, if_neg (by simp [hc]),
        ih hf' (by simp), consHead]

/-- splitlines is a left inverse of joinNL on line lists whose lines
are boundary-free and whose last line is nonempty. -/
theorem splitlines_join : ∀ (ls : List (List Char)),
    (∀ l ∈ ls, bFree l = true) → ls.getLast? ≠ some [] →
    splitlines (joinNL ls) = ls := by
  intro ls
  induction ls with
  | nil => intro _ _; rfl
  | cons l ls' ih =>
    intro hf hlast
    cases ls' with
    | nil =>
      have hl : l ≠ [] := by
        intro h
        exact hlast (by simp [h])
      rw [joinNL]
      exact splitlines_one l (hf l (by simp)) hl
    | cons l2 ls'' =>
      rw [joinNL, splitlines_nl l _ (hf l (by simp)),
        ih (fun x hx => hf x (List.mem_cons_of_mem _ hx))
          (by rwa [List.getLast?_cons_cons] at hlast)]

/-- Every member line occurs as a substring of the joined text. -/
theorem joinNL_sub : ∀ (ls : List (List Char)) (l : List Char), l ∈ ls →
    ∃ u v, joinNL ls = u ++ l ++ v := by
  intro ls
  induction ls with
  | nil => intro l h; simp at h
  | cons l0 ls' ih =>
    intro l h
    rcases List.mem_cons.1 h with rfl | h
    · cases ls' with
      | nil => exact ⟨[], [], by simp [joinNL]⟩
      | cons l1 ls'' =>
        exact ⟨[], '\n' :: joinNL (l1 :: ls''), by rw [joinNL]; simp⟩
    · cases ls' with
      | nil => simp at h
      | cons l1 ls'' =>
        obtain ⟨u, v, huv⟩ := ih l h
        refine ⟨l0 ++ '\n' :: u, v, ?_⟩
        rw [joinNL, huv]
        simp [List.append_assoc]

/-- The joined text ends as its nonempty last line ends. -/
theorem joinNL_getLast : ∀ (ls : List (List Char)) (l : List Char),
    ls.getLast? = some l → l ≠ [] →
    (joinNL ls).getLast? = l.getLast? := by
  intro ls
  induction ls with
  | nil => intro l h _; simp at h
  | cons l0 ls' ih =>
    intro l h hl
    cases ls' with
    | nil =>
      simp only [List.getLast?_singleton, Option.some.injEq] at h
      rw [joinNL, h]
    | cons l1 ls'' =>
      rw [List.getLast?_cons_cons] at h
      have hj := ih l h hl
      have hjne : joinNL (l1 :: ls'') ≠ [] := by
        intro he
        rw [he] at hj
        obtain ⟨L, b, rfl⟩ := (List.eq_nil_or_concat l).resolve_left hl
        rw [List.concat_eq_append, List.getLast?_concat] at hj
        simp at hj
      rw [joinNL, getLast?_right l0 _ (by simp), ← List.singleton_append,
        getLast?_right ['\n'] _ hjne]
      exact hj

/-- When splitlines ends with an empty line, joinNL does not restore
the original string (the trailing boundary is lost). -/
theorem join_last_ne_empty : ∀ (c : List Char),
    (splitlines c).getLast? = some [] → joinNL (splitlines c) ≠ c := by
  intro c
  induction c using splitlines.induct with
  | case1 =>
    intro h
    rw [splitlines] at h
    simp at h
  | case2 c hb =>
    intro h
    rw [splitlines_single, if_pos hb]
    simp [joinNL]
  | case3 c hb =>
    intro h
    rw [splitlines_single, if_neg hb] at h
    simp at h
  | case4 c d rest hcd ih =>
    intro h
    obtain ⟨rfl, rfl⟩ := hcd
    rw [splitlines_cons_cons, if_pos ⟨rfl, rfl⟩] at h ⊢
    cases hS : splitlines rest with
    | nil => simp [joinNL]
    | cons S0 S1 =>
      rw [joinNL_cons _ _ (by simp), List.nil_append]
      intro he
      injection he with h1 h2
      exact absurd h1 (by decide)
  | case5 c d rest hcd hb ih =>
    intro h
    rw [splitlines_cons_cons, if_neg hcd, if_pos hb] at h ⊢
    have hS : splitlines (d :: rest) ≠ [] := splitlines_ne_nil _ (by simp)
    rw [joinNL_cons _ _ hS, List.nil_append]
    intro he
    injection he with h1 h2
    have h' : (splitlines (d :: rest)).getLast? = some [] := by
      cases hSS : splitlines (d :: rest) with
      | nil => exact absurd hSS hS
      | cons S0 S1 =>
        rw [hSS] at h
        rw [List.getLast?_cons_cons] at h
        exact h
    exact absurd h2 (ih h')
  | case6 c d rest hcd hb ih =>
    intro h
    have hsplit : splitlines (c :: d :: rest)
        = consHead c (splitlines (d :: rest)) := by
      rw [splitlines_cons_cons, if_neg hcd, if_neg hb]
    obtain ⟨S0, S1, hS⟩ : ∃ S0 S1, splitlines (d :: rest) = S0 :: S1 := by
      cases hS : splitlines (d :: rest) with
      | nil => exact absurd hS (splitlines_ne_nil _ (by simp))
      | cons S0 S1 => exact ⟨S0, S1, rfl⟩
    rw [hsplit, hS, consHead] at h ⊢
    cases S1 with
    | nil => simp at h
    | cons y S1' =>
      rw [List.getLast?_cons_cons] at h
      have hlast : (splitlines (d :: rest)).getLast? = some [] := by
        rw [hS, List.getLast?_cons_cons]
        exact h
      intro he
      rw [joinNL_cons _ _ (by simp), List.cons_append] at he
      injection he with h1 h2
      apply ih hlast
      rw [hS, joinNL_cons _ _ (by simp)]
      exact h2

/-- consHead distributes over an append with nonempty left part. -/
theorem consHead_append (c : Char) (A B : List (List Char)) (h : A ≠ []) :
    consHead c (A ++ B) = consHead c A ++ B := by
  cases A with
  | nil => exact absurd rfl h
  | cons a A' => rfl

/-- splitlines cuts at an inserted newline: the part up to and
including the newline and the remainder split independently. -/
theorem splitlines_split : ∀ (x y : List Char),
    splitlines (x ++ '\n' :: y) = splitlines (x ++ ['\n']) ++ splitlines y := by
  intro x
  induction x using splitlines.induct with
  | case1 =>
    intro y
    rw [List.nil_append, List.nil_append]
    cases y with
    | nil => rw [splitlines_single]; rfl
    | cons d t =>
      rw [splitlines_cons_cons,
        if_neg (by rintro ⟨h, -⟩; exact absurd h (by decide)),
        if_pos (by decide), splitlines_single, if_pos (by decide)]
      rfl
  | case2 c hb =>
    intro y
    by_cases hr : c = '\r'
    · subst hr
      rw [List.cons_append, List.nil_append, splitlines_cons_cons,
        if_pos ⟨rfl, rfl⟩]
      rw [show ['\r'] ++ ['\n'] = ('\r' : Char) :: '\n' :: [] from rfl,
        splitlines_cons_cons, if_pos ⟨rfl, rfl⟩]
      rfl
    · rw [List.cons_append, List.nil_append, splitlines_cons_cons,
        if_neg (by rintro ⟨h, -⟩; exact absurd h hr), if_pos hb]
      rw [show [c] ++ ['\n'] = c :: '\n' :: [] from rfl, splitlines_cons_cons,
        if_neg (by rintro ⟨h, -⟩; exact absurd h hr), if_pos hb,
        splitlines_single, if_pos (by decide)]
      cases y with
      | nil =>
        rw [splitlines_single, if_pos (by decide)]
        rfl
      | cons d t =>
        rw [splitlines_cons_cons,
          if_neg (by rintro ⟨h, -⟩; exact absurd h (by decide)),
          if_pos (by decide)]
        rfl
  | case3 c hb =>
    intro y
    rw [List.cons_append, List.nil_append]
    have hr : c ≠ '\r' := by
      intro h
      exact hb (by rw [h]; decide)
    rw [splitlines_cons_cons, if_neg (by rintro ⟨h, -⟩; exact absurd h hr),
      if_neg hb]
    rw [show [c] ++ ['\n'] = c :: '\n' :: [] from rfl, splitlines_cons_cons,
      if_neg (by rintro ⟨h, -⟩; exact absurd h hr), if_neg hb,
      splitlines_single, if_pos (by decide), consHead]
    cases y with
    | nil =>
      rw [splitlines_single, if_pos (by decide), consHead]
      rfl
    | cons d t =>
      rw [splitlines_cons_cons,
        if_neg (by rintro ⟨h, -⟩; exact absurd h (by decide)),
        if_pos (by decide), consHead]
      rfl
  | case4 c d rest hcd ih =>
    intro y
    obtain ⟨rfl, rfl⟩ := hcd
    rw [List.cons_append, List.cons_append, splitlines_cons_cons,
      if_pos ⟨rfl, rfl⟩, ih y]
    rw [show ('\r' : Char) :: '\n' :: rest ++ ['\n']
      = '\r' :: '\n' :: (rest ++ ['\n']) from rfl, splitlines_cons_cons,
      if_pos ⟨rfl, rfl⟩]
    rfl
  | case5 c d rest hcd hb ih =>
    intro y
    simp only [List.cons_append]
    rw [splitlines_cons_cons c d (rest ++ '\n' :: y),
      splitlines_cons_cons c d (rest ++ ['\n']), if_neg hcd, if_pos hb,
      if_neg hcd, if_pos hb]
    have ih' := ih y
    simp only [List.cons_append] at ih'
    rw [ih']
    rfl
  | case6 c d rest hcd hb ih =>
    intro y
    simp only [List.cons_append]
    rw [splitlines_cons_cons c d (rest ++ '\n' :: y),
      splitlines_cons_cons c d (rest ++ ['\n']), if_neg hcd, if_neg hb,
      if_neg hcd, if_neg hb]
    have ih' := ih y
    simp only [List.cons_append] at ih'
    rw [ih']
    exact consHead_append c _ _ (splitlines_ne_nil _ (by simp))

/-- A boundary-free string does not contain the newline character. -/
theorem bFree_no_nl {q : List Char} (h : bFree q = true) : ('\n') ∉ q := by
  intro hm
  have h2 := List.all_eq_true.1 h _ hm
  simp [isLineBreak] at h2

/-- Substring decompositions compose. -/
theorem sub_trans {q l X : List Char} (h1 : ∃ a b, l = a ++ q ++ b)
    (h2 : ∃ u v, X = u ++ l ++ v) : ∃ s t, X = s ++ q ++ t := by
  obtain ⟨a, b, rfl⟩ := h1
  obtain ⟨u, v, rfl⟩ := h2
  exact ⟨u ++ a, b ++ v, by simp [List.append_assoc]⟩

/-- Replacing an already replaced line changes nothing. -/
theorem replaceLine_replaceLine (k tr l : List Char) :
    replaceLine k tr (replaceLine k tr l) = replaceLine k tr l := by
  by_cases h : lineMatches k l = true
  · simp [replaceLine, h, canonical_matches]
  · simp [replaceLine, h]

/-- replaceLine keeps lines nonempty. -/
theorem replaceLine_ne_nil (k tr l : List Char) (h : l ≠ []) :
    replaceLine k tr l ≠ [] := by
  by_cases hm : lineMatches k l = true
  · simp [replaceLine, hm, canonical_ne_nil]
  · simp [replaceLine, hm, h]

/-- The per-line replacement pass is idempotent on line lists. -/
theorem map_replace_twice (k tr : List Char) (ls : List (List Char)) :
    (ls.map (replaceLine k tr)).map (replaceLine k tr)
      = ls.map (replaceLine k tr) := by
  induction ls with
  | nil => rfl
  | cons a t ih => simp [List.map_cons, replaceLine_replaceLine, ih]

/-- The per-line replacement pass fixes a list without matches. -/
theorem map_id_of_no_match (k tr : List Char) (ls : List (List Char))
    (h : ∀ l ∈ ls, lineMatches k l = false) :
    ls.map (replaceLine k tr) = ls := by
  induction ls with
  | nil => rfl
  | cons a t ih =>
    rw [List.map_cons, ih (fun l hl => h l (List.mem_cons_of_mem _ hl)),
      replaceLine, h a (List.mem_cons_self _ _)]
    simp

/-- getLast? commutes with map over line lists. -/
theorem getLast?_map (f : List Char → List Char) : ∀ (ls : List (List Char)),
    (ls.map f).getLast? = Option.map f ls.getLast? := by
  intro ls
  induction ls with
  | nil => rfl
  | cons a t ih =>
    cases t with
    | nil => rfl
    | cons b t' =>
      simp only [List.map_cons] at ih ⊢
      rw [List.getLast?_cons_cons, List.getLast?_cons_cons]
      exact ih

/-- In the update branch, the resulting file content is the joined
replaced text whether or not the write was skipped. -/
theorem processContent_update_snd (k tr c : List Char)
    (hcs : containsSub (quoted k) c = true) :
    (processContent k tr c).2 = updateContent k tr c := by
  rw [processContent, if_pos hcs]
  by_cases h : updateContent k tr c = c
  · rw [if_pos h, h]
  · rw [if_neg h]

/-- If the content contains the quoted key as a substring, so does the
updated content: matched lines are replaced by the canonical line that
starts with the quoted key, other lines are kept. -/
theorem containsSub_update (k tr c : List Char) (hk : bFree (quoted k) = true)
    (hcs : containsSub (quoted k) c = true) :
    containsSub (quoted k) (updateContent k tr c) = true := by
  obtain ⟨u, v, huv⟩ := (containsSub_iff _ _).1 hcs
  obtain ⟨l, hl, a, b, hab⟩ := sub_line c (quoted k) u v hk (quoted_ne_nil k) huv
  have hmem : replaceLine k tr l ∈ (splitlines c).map (replaceLine k tr) :=
    List.mem_map_of_mem _ hl
  have hsub : ∃ a2 b2, replaceLine k tr l = a2 ++ quoted k ++ b2 := by
    by_cases hm : lineMatches k l = true
    · refine ⟨[], (' ' :: '=' :: ' ' :: quoted tr) ++ [';'], ?_⟩
      rw [replaceLine, hm, if_pos rfl, canonical_eq]
      simp
    · exact ⟨a, b, by rw [replaceLine, if_neg hm]; exact hab⟩
  refine (containsSub_iff _ _).2 ?_
  obtain ⟨s, t, hst⟩ :=
    sub_trans hsub (joinNL_sub _ _ hmem)
  exact ⟨s, t, hst⟩

/-- Applying the update pass to its own output leaves it unchanged,
provided joining the lines of the original content restores it. -/
theorem update_stable (k tr c : List Char) (hk : bFree (quoted k) = true)
    (htr : bFree tr = true) (hcs : containsSub (quoted k) c = true)
    (hrt : joinNL (splitlines c) = c) :
    processContent k tr (updateContent k tr c)
      = (FileAction.skipped, updateContent k tr c) := by
  have hlast : (splitlines c).getLast? ≠ some [] := by
    intro h
    exact join_last_ne_empty c h hrt
  have hbf : ∀ l ∈ (splitlines c).map (replaceLine k tr), bFree l = true := by
    intro l hl
    obtain ⟨x, hx, rfl⟩ := List.mem_map.1 hl
    by_cases hm : lineMatches k x = true
    · rw [replaceLine, if_pos hm]
      exact canonical_bFree hk htr
    · rw [replaceLine, if_neg hm]
      exact mem_splitlines_bFree c x hx
  have hlast2 : ((splitlines c).map (replaceLine k tr)).getLast? ≠ some [] := by
    rw [getLast?_map]
    cases hE : (splitlines c).getLast? with
    | none => simp
    | some l =>
      have hlne : l ≠ [] := by
        intro h
        exact hlast (by rw [hE, h])
      intro h
      have h' : some (replaceLine k tr l) = some [] := by simpa using h
      injection h' with h''
      exact replaceLine_ne_nil k tr l hlne h''
  have hsplit : splitlines (updateContent k tr c)
      = (splitlines c).map (replaceLine k tr) := by
    rw [updateContent]
    exact splitlines_join _ hbf hlast2
  have hfix : updateContent k tr (updateContent k tr c)
      = updateContent k tr c := by
    rw [updateContent, hsplit, map_replace_twice]
    rfl
  rw [processContent, if_pos (containsSub_update k tr c hk hcs), if_pos hfix]

/-- The padded content always ends with a newline. -/
theorem padNL_getLast (c : List Char) : (padNL c).getLast? = some '\n' := by
  rw [padNL]
  by_cases h : endsNL c = true
  · rw [if_pos h]
    simpa [endsNL] using h
  · rw [if_neg h, List.getLast?_concat]

/-- The appended text regrouped around its blank-line newline. -/
theorem appendContent_eq (k tr c : List Char) :
    appendContent k tr c
      = padNL c ++ '\n' :: (canonicalLine k tr ++ ['\n']) := by
  rw [appendContent]
  simp

/-- The appended text ends with a newline. -/
theorem append_getLast (k tr c : List Char) :
    (appendContent k tr c).getLast? = some '\n' := by
  rw [appendContent, ← List.append_assoc, List.getLast?_concat]

/-- The append branch was taken: lines of the result are the lines of
the padded content plus one blank line, then the canonical line. -/
theorem splitlines_append_content (k tr c : List Char)
    (hk : bFree (quoted k) = true) (htr : bFree tr = true) :
    splitlines (appendContent k tr c)
      = splitlines (padNL c ++ ['\n']) ++ [canonicalLine k tr] := by
  rw [appendContent_eq,
    splitlines_split (padNL c) (canonicalLine k tr ++ ['\n'])]
  congr 1
  rw [show canonicalLine k tr ++ ['\n']
      = canonicalLine k tr ++ '\n' :: [] from rfl,
    splitlines_nl _ _ (canonical_bFree hk htr)]
  rfl

/-- When the quoted key is absent from the content, no line of the
padded content passes the existing-entry test. -/
theorem no_match_padded (k c : List Char) (hk : bFree (quoted k) = true)
    (hcs : containsSub (quoted k) c = false) :
    ∀ l ∈ splitlines (padNL c ++ ['\n']), lineMatches k l = false := by
  intro l hl
  by_contra hm
  rw [Bool.not_eq_false] at hm
  have h3 : ∃ s t, padNL c ++ ['\n'] = s ++ quoted k ++ t :=
    sub_trans (match_sub hm) (mem_splitlines_sub _ _ hl)
  have hnl : ('\n') ∉ quoted k := bFree_no_nl hk
  have h4 : ∃ s t, padNL c = s ++ quoted k ++ t :=
    sub_concat_drop (quoted_ne_nil k) hnl h3
  have h5 : ∃ s t, c = s ++ quoted k ++ t := by
    rw [padNL] at h4
    by_cases he : endsNL c = true
    · rwa [if_pos he] at h4
    · rw [if_neg he] at h4
      exact sub_concat_drop (quoted_ne_nil k) hnl h4
  exact absurd ((containsSub_iff _ _).2 h5) (by simp [hcs])

/-- The replacement pass over the appended text replaces only the
canonical line (with itself). -/
theorem map_append_lines (k tr c : List Char) (hk : bFree (quoted k) = true)
    (htr : bFree tr = true) (hcs : containsSub (quoted k) c = false) :
    (splitlines (appendContent k tr c)).map (replaceLine k tr)
      = splitlines (padNL c ++ ['\n']) ++ [canonicalLine k tr] := by
  rw [splitlines_append_content k tr c hk htr, List.map_append,
    map_id_of_no_match _ _ _ (no_match_padded k c hk hcs)]
  simp [replaceLine, canonical_matches]

/-- The update pass applied to the appended text. -/
theorem update_of_append (k tr c : List Char) (hk : bFree (quoted k) = true)
    (htr : bFree tr = true) (hcs : containsSub (quoted k) c = false) :
    updateContent k tr (appendContent k tr c)
      = joinNL (splitlines (padNL c ++ ['\n']) ++ [canonicalLine k tr]) := by
  rw [updateContent, map_append_lines k tr c hk htr hcs]

/-- The update pass changes the appended text: the appended text ends
with a newline, the joined replacement does not. -/
theorem update_append_ne (k tr c : List Char) (hk : bFree (quoted k) = true)
    (htr : bFree tr = true) (hcs : containsSub (quoted k) c = false) :
    updateContent k tr (appendContent k tr c) ≠ appendContent k tr c := by
  have h1 : (updateContent k tr (appendContent k tr c)).getLast?
      = some ';' := by
    rw [update_of_append k tr c hk htr hcs,
      joinNL_getLast _ (canonicalLine k tr) (List.getLast?_concat _)
        (canonical_ne_nil k tr)]
    exact canonical_getLast k tr
  intro he
  rw [he, append_getLast] at h1
  injection h1 with h2
  exact absurd h2 (by decide)

/-- The appended text contains the quoted key. -/
theorem containsSub_append (k tr c : List Char) :
    containsSub (quoted k) (appendContent k tr c) = true := by
  refine (containsSub_iff _ _).2 ?_
  refine ⟨padNL c ++ ['\n'],
    ((' ' :: '=' :: ' ' :: quoted tr) ++ [';']) ++ ['\n'], ?_⟩
  rw [appendContent_eq, canonical_eq]
  simp [List.append_assoc]

/-- The first run on key-free content appends. -/
theorem append_first (k tr c : List Char)
    (hcs : containsSub (quoted k) c = false) :
    processContent k tr c = (FileAction.added, appendContent k tr c) := by
  rw [processContent, if_neg (by simp [hcs])]

/-- The second run after an append rewrites the file. -/
theorem append_second (k tr c : List Char) (hk : bFree (quoted k) = true)
    (htr : bFree tr = true) (hcs : containsSub (quoted k) c = false) :
    processContent k tr (appendContent k tr c)
      = (FileAction.updated,
         joinNL (splitlines (padNL c ++ ['\n']) ++ [canonicalLine k tr])) := by
  rw [processContent, if_pos (containsSub_append k tr c),
    if_neg (update_append_ne k tr c hk htr hcs),
    update_of_append k tr c hk htr hcs]

/-- The third run after an append skips: the rewritten text is a fixed
point of the per-file transformation. -/
theorem append_third (k tr c : List Char) (hk : bFree (quoted k) = true)
    (htr : bFree tr = true) (hcs : containsSub (quoted k) c = false) :
    processContent k tr
        (joinNL (splitlines (padNL c ++ ['\n']) ++ [canonicalLine k tr]))
      = (FileAction.skipped,
         joinNL (splitlines (padNL c ++ ['\n']) ++ [canonicalLine k tr])) := by
  have hsp : splitlines
      (joinNL (splitlines (padNL c ++ ['\n']) ++ [canonicalLine k tr]))
      = splitlines (padNL c ++ ['\n']) ++ [canonicalLine k tr] := by
    apply splitlines_join
    · intro l hl
      rcases List.mem_append.1 hl with h | h
      · exact mem_splitlines_bFree _ _ h
      · rw [List.mem_singleton.1 h]
        exact canonical_bFree hk htr
    · rw [List.getLast?_concat]
      intro h
      injection h with h'
      exact canonical_ne_nil k tr h'
  have hcs2 : containsSub (quoted k)
      (joinNL (splitlines (padNL c ++ ['\n']) ++ [canonicalLine k tr]))
      = true := by
    refine (containsSub_iff _ _).2 ?_
    refine @sub_trans (quoted k) (canonicalLine k tr) _
      ⟨[], (' ' :: '=' :: ' ' :: quoted tr) ++ [';'], ?_⟩
      (joinNL_sub _ _ (List.mem_append_right _ (by simp)))
    rw [canonical_eq]
    simp
  have hfix : updateContent k tr
      (joinNL (splitlines (padNL c ++ ['\n']) ++ [canonicalLine k tr]))
      = joinNL (splitlines (padNL c ++ ['\n']) ++ [canonicalLine k tr]) := by
    rw [updateContent, hsp, List.map_append,
      map_id_of_no_match _ _ _ (no_match_padded k c hk hcs)]
    simp [replaceLine, canonical_matches]
  rw [processContent, if_pos hcs2, if_pos hfix]

/-- A line that passes the existing-entry test within the content
forces the substring branch test to succeed. -/
theorem match_line_containsSub {k c l : List Char} (hl : l ∈ splitlines c)
    (hm : lineMatches k l = true) : containsSub (quoted k) c = true :=
  (containsSub_iff _ _).2 (sub_trans (match_sub hm) (mem_splitlines_sub _ _ hl))

/-- Counting after a map counts the composed predicate. -/
theorem countTrue_map {α β : Type} (p : β → Bool) (f : α → β) :
    ∀ (l : List α), countTrue p (l.map f) = countTrue (fun e => p (f e)) l := by
  intro l
  induction l with
  | nil => rfl
  | cons a t ih => simp [countTrue, ih]

/-- Counting respects pointwise equal predicates. -/
theorem countTrue_congr {α : Type} (p q : α → Bool) (l : List α)
    (h : ∀ a ∈ l, p a = q a) : countTrue p l = countTrue q l := by
  induction l with
  | nil => rfl
  | cons a t ih =>
    simp only [countTrue]
    rw [h a (by simp), ih (fun x hx => h x (List.mem_cons_of_mem _ hx))]

/-- An entry contributes to the counter exactly when it is a bundle
whose resource file exists and whose try block completed. -/
theorem isSuccess_processEntry (t : Table) (fb : List Char) (e : Entry) :
    isSuccess (processEntry t fb e)
      = (endsWith lprojChars e.name && processedOk t fb e) := by
  cases hb : endsWith lprojChars e.name with
  | false =>
    rw [processEntry, hb]
    simp [isSuccess]
  | true =>
    rw [processEntry, hb]
    simp only [Bool.not_true, Bool.false_eq_true, if_false, Bool.true_and]
    cases hf : e.file with
    | none => simp [processedOk, hf, isSuccess]
    | some fs =>
      rw [processedOk, hf]
      cases ha : attempt (resolveTranslation t fb (langCodeOf e.name)) fs with
      | none => simp [ha, isSuccess]
      | some a => cases a <;> simp [ha, isSuccess]

/-- takeWhile stops exactly at the first failing character. -/
theorem takeWhile_until {p : Char → Bool} : ∀ (l : List Char) (r : List Char)
    (x : Char), l.all p = true → p x = false →
    (l ++ x :: r).takeWhile p = l := by
  intro l
  induction l with
  | nil =>
    intro r x _ hx
    rw [List.nil_append, List.takeWhile_cons, hx]
    simp
  | cons a l' ih =>
    intro r x hall hx
    rw [List.all_cons, Bool.and_eq_true] at hall
    rw [List.cons_append, List.takeWhile_cons, hall.1]
    simp only [if_true]
    rw [ih r x hall.2 hx]

/-- C9 counterexample: for the entry name a.b.lproj the script derives
language code a (text before the first dot), not the suffix-stripped
name a.b the claim describes. -/
theorem C9_counterexample :
    endsWith lprojChars "a.b.lproj".data = true ∧
    langCodeOf "a.b.lproj".data = "a".data ∧
    langCodeSpec "a.b.lproj".data = "a.b".data ∧
    langCodeOf "a.b.lproj".data ≠ langCodeSpec "a.b.lproj".data := by
  decide

/-- C9 (amended): the language code is the substring of the entry name
before the first dot (which equals the suffix-stripped name only when
the base name contains no dot), and the simplified code is the
substring of the language code before its first hyphen. -/
theorem C9_lang_code (base rest a b : List Char)
    (hbase : base.all (fun ch => ch != '.') = true)
    (ha : a.all (fun ch => ch != '-') = true) :
    langCodeOf (base ++ '.' :: rest) = base ∧
    simpleCode (a ++ '-' :: b) = a := by
  constructor
  · rw [langCodeOf]
    exact takeWhile_until base rest '.' hbase (by simp)
  · rw [simpleCode]
    exact takeWhile_until a b '-' ha (by simp)

/-- C9 witness at a concrete bundle name with a region suffix. -/
theorem C9_lang_code_witness :
    langCodeOf ("zh-Hans".data ++ '.' :: "lproj".data) = "zh-Hans".data ∧
    simpleCode ("zh".data ++ '-' :: "Hans".data) = "zh".data :=
  C9_lang_code "zh-Hans".data "lproj".data "zh".data "Hans".data
    (by decide) (by decide)

/-- A table whose stored values are all nonempty never yields an empty
value from a lookup. -/
theorem tGet_values_ne_nil : ∀ (t : Table),
    t.all (fun kv => !kv.2.isEmpty) = true →
    ∀ (q v : List Char), tGet t q = some v → v ≠ [] := by
  intro t
  induction t with
  | nil =>
    intro _ q v hg
    simp [tGet] at hg
  | cons kv rest ih =>
    intro h q v hg
    obtain ⟨k1, v1⟩ := kv
    rw [List.all_cons, Bool.and_eq_true] at h
    rw [tGet] at hg
    by_cases hq : q = k1
    · rw [if_pos hq] at hg
      injection hg with hg'
      subst hg'
      have h1 := h.1
      simp at h1
      simpa using h1
    · rw [if_neg hq] at hg
      exact ih h.2 q v hg

/-- C5 counterexample: with a table entry whose value is the empty
string, the lookup on the exact code succeeds yet the script resolves
to the fallback (Python or-falsiness), contradicting the claimed
precedence for every table. -/
theorem C5_counterexample :
    tGet [("en".data, ([] : List Char))] "en".data = some [] ∧
    fallbackChars ≠ [] ∧
    resolveTranslation [("en".data, ([] : List Char))] fallbackChars
      "en".data = fallbackChars := by
  decide

/-- C5 (amended): for tables with no empty-string values the claimed
precedence holds exactly: the exact code wins, then the region-stripped
code, then the fallback.  An entry holding the empty string is treated
as absent because Python `or` skips falsy values. -/
theorem C5_resolution (t : Table) (fb lc : List Char)
    (h : t.all (fun kv => !kv.2.isEmpty) = true) :
    (∀ v, tGet t lc = some v → resolveTranslation t fb lc = v) ∧
    (tGet t lc = none → ∀ w, tGet t (simpleCode lc) = some w →
      resolveTranslation t fb lc = w) ∧
    (tGet t lc = none → tGet t (simpleCode lc) = none →
      resolveTranslation t fb lc = fb) := by
  refine ⟨?_, ?_, ?_⟩
  · intro v hv
    rw [resolveTranslation, hv]
    simp only [pyOrStr]
    rw [if_neg (tGet_values_ne_nil t h lc v hv)]
  · intro hn w hw
    rw [resolveTranslation, hn, hw]
    simp only [pyOrStr]
    rw [if_neg (tGet_values_ne_nil t h _ w hw)]
  · intro hn hs
    rw [resolveTranslation, hn, hs]
    simp only [pyOrStr]

/-- C5 witness on the script table: exact hit for en, region-stripped
hit for pt-BR, fallback for an unknown code. -/
theorem C5_resolution_witness :
    resolveTranslation translations fallbackChars "en".data
      = "Continue without WikiShorts Pro".data ∧
    resolveTranslation translations fallbackChars "pt-BR".data
      = "Continuar sem WikiShorts Pro".data ∧
    resolveTranslation translations fallbackChars "xx".data
      = fallbackChars := by
  refine ⟨?_, ?_, ?_⟩
  · exact (C5_resolution translations fallbackChars "en".data (by decide)).1
      _ (by decide)
  · exact (C5_resolution translations fallbackChars "pt-BR".data
      (by decide)).2.1 (by decide) _ (by decide)
  · exact (C5_resolution translations fallbackChars "xx".data
      (by decide)).2.2 (by decide) (by decide)

/-- C4 counterexample: on content already ending in two newlines the
append branch keeps both and adds a third (it never reduces the ending
to exactly one newline as the claim states). -/
theorem C4_counterexample :
    (processContent keyChars "x".data "x\n\n".data).1 = FileAction.added ∧
    (processContent keyChars "x".data "x\n\n".data).2
      = "x\n\n\n".data ++ canonicalLine keyChars "x".data ++ ['\n'] ∧
    (processContent keyChars "x".data "x\n\n".data).2
      ≠ "x\n\n".data ++ canonicalLine keyChars "x".data ++ ['\n'] := by
  decide

/-- C4 (amended): in the append branch a newline is appended only when
the content does not already end with one (existing extra trailing
newlines are preserved), then a blank line, the canonical entry line
and a final newline follow; the result always ends with a newline. -/
theorem C4_append_exact (tr c : List Char)
    (hcs : containsSub (quoted keyChars) c = false) :
    (processContent keyChars tr c).1 = FileAction.added ∧
    (endsNL c = true → (processContent keyChars tr c).2
      = c ++ '\n' :: canonicalLine keyChars tr ++ ['\n']) ∧
    (endsNL c = false → (processContent keyChars tr c).2
      = (c ++ ['\n']) ++ '\n' :: canonicalLine keyChars tr ++ ['\n']) ∧
    endsNL ((processContent keyChars tr c).2) = true := by
  rw [append_first keyChars tr c hcs]
  refine ⟨rfl, ?_, ?_, ?_⟩
  · intro he
    show appendContent keyChars tr c = _
    rw [appendContent, padNL, if_pos he]
    simp [List.append_assoc]
  · intro he
    show appendContent keyChars tr c = _
    rw [appendContent, padNL, if_neg (by simp [he])]
    simp [List.append_assoc]
  · show endsNL (appendContent keyChars tr c) = true
    simp [endsNL, append_getLast]

/-- C4 witness on content ending with a single newline. -/
theorem C4_append_exact_witness :
    (processContent keyChars "x".data "a\n".data).1 = FileAction.added ∧
    (processContent keyChars "x".data "a\n".data).2
      = "a\n".data ++ '\n' :: canonicalLine keyChars "x".data ++ ['\n'] :=
  ⟨(C4_append_exact "x".data "a\n".data (by decide)).1,
   (C4_append_exact "x".data "a\n".data (by decide)).2.1 (by decide)⟩

/-- C10 (confirmed): in the append branch the original content is a
prefix of the written content byte for byte. -/
theorem C10_append_keeps_prefix (tr c : List Char)
    (hcs : containsSub (quoted keyChars) c = false) (hne : c ≠ []) :
    ∃ t, (processContent keyChars tr c).2 = c ++ t := by
  rw [append_first keyChars tr c hcs]
  by_cases he : endsNL c = true
  · refine ⟨'\n' :: canonicalLine keyChars tr ++ ['\n'], ?_⟩
    show appendContent keyChars tr c = _
    rw [appendContent, padNL, if_pos he]
  · refine ⟨'\n' :: ('\n' :: canonicalLine keyChars tr ++ ['\n']), ?_⟩
    show appendContent keyChars tr c = _
    rw [appendContent, padNL, if_neg (by simp [he])]
    simp

/-- C10 witness on a one-line file without trailing newline. -/
theorem C10_append_keeps_prefix_witness :
    ∃ t, (processContent keyChars "y".data "a".data).2 = "a".data ++ t :=
  C10_append_keeps_prefix "y".data "a".data (by decide) (by decide)

/-- C2 counterexample: content holding the quoted key mid-line passes
no line-prefix test, yet the script takes the update branch (substring
test), not the append branch the claim requires. -/
theorem C2_counterexample :
    (splitlines ('x' :: ' ' :: (quoted keyChars ++ " = \"v\";".data))).all
      (fun l => !lineMatches keyChars l) = true ∧
    (processContent keyChars "t".data
      ('x' :: ' ' :: (quoted keyChars ++ " = \"v\";".data))).1
      = FileAction.skipped ∧
    (processContent keyChars "t".data
      ('x' :: ' ' :: (quoted keyChars ++ " = \"v\";".data))).1
      ≠ FileAction.added := by
  decide

/-- C2 (amended): the append branch is taken exactly when the quoted
key does not occur as a substring of the content; a matching line
forces the substring test, so absence of matching lines is necessary
for the append branch but not sufficient. -/
theorem C2_append_condition (tr c : List Char) :
    ((processContent keyChars tr c).1 = FileAction.added ↔
      containsSub (quoted keyChars) c = false) ∧
    ((splitlines c).all (fun l => !lineMatches keyChars l) = false →
      containsSub (quoted keyChars) c = true) := by
  constructor
  · constructor
    · intro h
      by_contra hcs
      rw [Bool.not_eq_false] at hcs
      rw [processContent, if_pos hcs] at h
      by_cases he : updateContent keyChars tr c = c
      · rw [if_pos he] at h
        exact absurd h (by simp)
      · rw [if_neg he] at h
        exact absurd h (by simp)
    · intro hcs
      rw [append_first keyChars tr c hcs]
  · intro hall
    obtain ⟨l, hl, hml⟩ := List.all_eq_false.1 hall
    have hml' : lineMatches keyChars l = true := by
      simpa using hml
    exact match_line_containsSub hl hml'

/-- C2 witness at a file consisting of one canonical entry line. -/
theorem C2_append_condition_witness :
    (((processContent keyChars "t".data
        (canonicalLine keyChars "t".data)).1 = FileAction.added) ↔
      containsSub (quoted keyChars) (canonicalLine keyChars "t".data)
        = false) ∧
    ((splitlines (canonicalLine keyChars "t".data)).all
        (fun l => !lineMatches keyChars l) = false →
      containsSub (quoted keyChars) (canonicalLine keyChars "t".data)
        = true) :=
  C2_append_condition "t".data (canonicalLine keyChars "t".data)

/-- C3 counterexample: a non-matching line carried by CR-LF terminators
is not passed through byte for byte: the update branch rewrites the
terminator to a bare newline and drops the trailing newline. -/
theorem C3_counterexample :
    (processContent keyChars "new".data (canonicalLine keyChars "old".data
      ++ ('\r' :: '\n' :: "other".data ++ ['\r', '\n']))).1
      = FileAction.updated ∧
    (processContent keyChars "new".data (canonicalLine keyChars "old".data
      ++ ('\r' :: '\n' :: "other".data ++ ['\r', '\n']))).2
      = canonicalLine keyChars "new".data ++ '\n' :: "other".data ∧
    (processContent keyChars "new".data (canonicalLine keyChars "old".data
      ++ ('\r' :: '\n' :: "other".data ++ ['\r', '\n']))).2
      ≠ canonicalLine keyChars "new".data
        ++ ('\r' :: '\n' :: "other".data ++ ['\r', '\n']) := by
  decide

/-- C3 (amended): for content written as newline-joined boundary-free
lines with a nonempty last line (bare-LF terminators, no trailing
newline) the update branch is exactly the per-line map: non-matching
lines pass through unchanged; in general terminators are normalized. -/
theorem C3_frame (tr : List Char) (ls : List (List Char))
    (hbf : ∀ l ∈ ls, bFree l = true) (hlast : ls.getLast? ≠ some []) :
    updateContent keyChars tr (joinNL ls)
      = joinNL (ls.map (replaceLine keyChars tr)) ∧
    ls.all (fun l => lineMatches keyChars l ||
      (replaceLine keyChars tr l == l)) = true := by
  constructor
  · rw [updateContent, splitlines_join ls hbf hlast]
  · rw [List.all_eq_true]
    intro l hl
    by_cases hm : lineMatches keyChars l = true
    · simp [hm]
    · simp [replaceLine, hm]

/-- C3 witness on a two-line file: the matching line is replaced, the
other line is kept. -/
theorem C3_frame_witness :
    updateContent keyChars "new".data
        (joinNL [canonicalLine keyChars "old".data, "other".data])
      = joinNL ([canonicalLine keyChars "old".data, "other".data].map
          (replaceLine keyChars "new".data)) ∧
    [canonicalLine keyChars "old".data, "other".data].all
      (fun l => lineMatches keyChars l ||
        (replaceLine keyChars "new".data l == l)) = true :=
  C3_frame "new".data [canonicalLine keyChars "old".data, "other".data]
    (by decide) (by decide)

/-- C6 (confirmed): in the update branch every matching line, duplicates
included, is replaced by the identical canonical line; the file content
is the joined replaced text, and the write is skipped exactly when that
text equals the original, in which case the bytes are unchanged. -/
theorem C6_update_all (tr c : List Char)
    (hcs : containsSub (quoted keyChars) c = true) :
    (processContent keyChars tr c).2 = updateContent keyChars tr c ∧
    ((processContent keyChars tr c).1 = FileAction.skipped ↔
      updateContent keyChars tr c = c) ∧
    ((processContent keyChars tr c).1 = FileAction.skipped →
      (processContent keyChars tr c).2 = c) ∧
    (splitlines c).all (fun l => !lineMatches keyChars l ||
      (replaceLine keyChars tr l == canonicalLine keyChars tr)) = true := by
  have hiff : (processContent keyChars tr c).1 = FileAction.skipped ↔
      updateContent keyChars tr c = c := by
    constructor
    · intro h
      by_contra he
      rw [processContent, if_pos hcs, if_neg he] at h
      exact absurd h (by simp)
    · intro he
      rw [processContent, if_pos hcs, if_pos he]
  refine ⟨processContent_update_snd keyChars tr c hcs, hiff, ?_, ?_⟩
  · intro h
    rw [processContent_update_snd keyChars tr c hcs]
    exact hiff.1 h
  · rw [List.all_eq_true]
    intro l hl
    by_cases hm : lineMatches keyChars l = true
    · simp [replaceLine, hm]
    · simp [hm]

/-- C6 witness on a file with two duplicate matching lines. -/
theorem C6_update_all_witness :
    (processContent keyChars "new".data
        (joinNL [canonicalLine keyChars "a".data,
                 canonicalLine keyChars "b".data])).2
      = updateContent keyChars "new".data
          (joinNL [canonicalLine keyChars "a".data,
                   canonicalLine keyChars "b".data]) ∧
    ((processContent keyChars "new".data
        (joinNL [canonicalLine keyChars "a".data,
                 canonicalLine keyChars "b".data])).1 = FileAction.skipped ↔
      updateContent keyChars "new".data
          (joinNL [canonicalLine keyChars "a".data,
                   canonicalLine keyChars "b".data])
        = joinNL [canonicalLine keyChars "a".data,
                  canonicalLine keyChars "b".data]) ∧
    ((processContent keyChars "new".data
        (joinNL [canonicalLine keyChars "a".data,
                 canonicalLine keyChars "b".data])).1 = FileAction.skipped →
      (processContent keyChars "new".data
        (joinNL [canonicalLine keyChars "a".data,
                 canonicalLine keyChars "b".data])).2
        = joinNL [canonicalLine keyChars "a".data,
                  canonicalLine keyChars "b".data]) ∧
    (splitlines (joinNL [canonicalLine keyChars "a".data,
        canonicalLine keyChars "b".data])).all
      (fun l => !lineMatches keyChars l ||
        (replaceLine keyChars "new".data l
          == canonicalLine keyChars "new".data)) = true :=
  C6_update_all "new".data
    (joinNL [canonicalLine keyChars "a".data, canonicalLine keyChars "b".data])
    (by decide)

/-- C1 counterexample: starting from an empty existing file, the first
run appends; the second run does not skip: it rewrites the file
(dropping the trailing newline), so the content after the second run
differs from the content after the first. -/
theorem C1_counterexample :
    (processContent keyChars fallbackChars
      ((processContent keyChars fallbackChars []).2)).1
      = FileAction.updated ∧
    (processContent keyChars fallbackChars
      ((processContent keyChars fallbackChars []).2)).2
      ≠ (processContent keyChars fallbackChars []).2 := by
  decide

/-- C1 (amended): when the first run takes the update branch and the
original content is newline-joined round-trippable (bare-LF
terminators, no trailing newline), the second run skips and leaves the
content unchanged.  When the first run appends, the second run instead
rewrites the file (reporting updated), and the third run is the one
that skips with the content unchanged. -/
theorem C1_two_runs (tr c : List Char) (htr : bFree tr = true) :
    (containsSub (quoted keyChars) c = true → joinNL (splitlines c) = c →
      processContent keyChars tr ((processContent keyChars tr c).2)
        = (FileAction.skipped, (processContent keyChars tr c).2)) ∧
    (containsSub (quoted keyChars) c = false →
      (processContent keyChars tr ((processContent keyChars tr c).2)).1
        = FileAction.updated ∧
      processContent keyChars tr
          ((processContent keyChars tr
            ((processContent keyChars tr c).2)).2)
        = (FileAction.skipped,
           (processContent keyChars tr
             ((processContent keyChars tr c).2)).2)) := by
  have hk : bFree (quoted keyChars) = true := by decide
  constructor
  · intro hcs hrt
    rw [processContent_update_snd keyChars tr c hcs]
    exact update_stable keyChars tr c hk htr hcs hrt
  · intro hcs
    rw [append_first keyChars tr c hcs]
    constructor
    · show (processContent keyChars tr (appendContent keyChars tr c)).1 = _
      rw [append_second keyChars tr c hk htr hcs]
    · show processContent keyChars tr
          ((processContent keyChars tr (appendContent keyChars tr c)).2) = _
      rw [append_second keyChars tr c hk htr hcs]
      exact append_third keyChars tr c hk htr hcs

/-- C1 witness: on a file already holding the canonical entry the
second run skips and leaves the content unchanged. -/
theorem C1_two_runs_witness :
    processContent keyChars "x".data
        ((processContent keyChars "x".data
          (canonicalLine keyChars "x".data)).2)
      = (FileAction.skipped,
         (processContent keyChars "x".data
           (canonicalLine keyChars "x".data)).2) :=
  (C1_two_runs "x".data (canonicalLine keyChars "x".data) (by decide)).1
    (by decide) (by decide)

/-- C7 (confirmed): the final counter counts exactly the bundle entries
whose resource file exists and whose try block completed, and a bundle
whose resource file is missing yields the silent missing-file outcome,
which is not an error and is not counted. -/
theorem C7_missing_file (t : Table) (fb : List Char) (entries : List Entry) :
    (runSync t fb entries).2
      = countTrue (fun e => endsWith lprojChars e.name && processedOk t fb e)
          entries ∧
    (∀ e, e ∈ entries → endsWith lprojChars e.name = true → e.file = none →
      processEntry t fb e = Outcome.missingFile ∧
      isSuccess (processEntry t fb e) = false) := by
  constructor
  · show countTrue isSuccess (entries.map (processEntry t fb)) = _
    rw [countTrue_map]
    exact countTrue_congr _ _ entries (fun e _ => isSuccess_processEntry t fb e)
  · intro e he hb hf
    have hpe : processEntry t fb e = Outcome.missingFile := by
      rw [processEntry, hb, hf]
      simp
    exact ⟨hpe, by rw [hpe]; rfl⟩

/-- C7 witness: a missing-file bundle, a processed bundle and a
non-bundle entry give a count of one. -/
theorem C7_missing_file_witness :
    (runSync translations fallbackChars
        [⟨"en.lproj".data, none⟩,
         ⟨"tr.lproj".data, some ⟨[], true, true⟩⟩,
         ⟨"README".data, none⟩]).2
      = countTrue (fun e => endsWith lprojChars e.name &&
          processedOk translations fallbackChars e)
          [⟨"en.lproj".data, none⟩,
           ⟨"tr.lproj".data, some ⟨[], true, true⟩⟩,
           ⟨"README".data, none⟩] ∧
    processEntry translations fallbackChars ⟨"en.lproj".data, none⟩
      = Outcome.missingFile :=
  ⟨(C7_missing_file translations fallbackChars
      [⟨"en.lproj".data, none⟩,
       ⟨"tr.lproj".data, some ⟨[], true, true⟩⟩,
       ⟨"README".data, none⟩]).1,
   ((C7_missing_file translations fallbackChars
      [⟨"en.lproj".data, none⟩,
       ⟨"tr.lproj".data, some ⟨[], true, true⟩⟩,
       ⟨"README".data, none⟩]).2 ⟨"en.lproj".data, none⟩
      (List.mem_cons_self _ _) (by decide) rfl).1⟩

/-- C8 (confirmed): the run yields one outcome per entry (no failure
escapes the loop), each entry is processed independently, a read fault
or a write fault on a writing branch turns into the error outcome
carrying that entry's language code, and such an entry is not
counted. -/
theorem C8_errors_contained (t : Table) (fb : List Char)
    (entries : List Entry) :
    (runSync t fb entries).1.length = entries.length ∧
    (runSync t fb entries).1 = entries.map (processEntry t fb) ∧
    (∀ e fs, e ∈ entries → e.file = some fs →
      endsWith lprojChars e.name = true →
      attempt (resolveTranslation t fb (langCodeOf e.name)) fs = none →
      processEntry t fb e = Outcome.errored (langCodeOf e.name) ∧
      isSuccess (processEntry t fb e) = false) ∧
    (∀ fs tr, fs.readOk = false → attempt tr fs = none) ∧
    (∀ fs tr, fs.writeOk = false →
      (processContent keyChars tr fs.content).1 ≠ FileAction.skipped →
      attempt tr fs = none) := by
  refine ⟨?_, rfl, ?_, ?_, ?_⟩
  · show (entries.map (processEntry t fb)).length = entries.length
    exact List.length_map _ _
  · intro e fs he hf hb ha
    have hpe : processEntry t fb e
        = Outcome.errored (langCodeOf e.name) := by
      rw [processEntry, hb]
      simp [hf, ha]
    exact ⟨hpe, by rw [hpe]; rfl⟩
  · intro fs tr hr
    rw [attempt, hr]
    rfl
  · intro fs tr hw hskip
    rw [attempt]
    by_cases hr : fs.readOk = true
    · rw [hr]
      simp only [Bool.not_true, Bool.false_eq_true, if_false]
      cases ha : (processContent keyChars tr fs.content).1 with
      | skipped => exact absurd ha hskip
      | updated => simp [hw]
      | added => simp [hw]
    · have hr' : fs.readOk = false := by simpa using hr
      rw [hr']
      rfl

/-- C8 witness: a bundle whose read fails yields the error outcome with
its language code and the run still yields one outcome. -/
theorem C8_errors_contained_witness :
    processEntry translations fallbackChars
        ⟨"en.lproj".data, some ⟨[], false, true⟩⟩
      = Outcome.errored (langCodeOf "en.lproj".data) ∧
    (runSync translations fallbackChars
        [⟨"en.lproj".data, some ⟨[], false, true⟩⟩]).1.length = 1 :=
  ⟨((C8_errors_contained translations fallbackChars
      [⟨"en.lproj".data, some ⟨[], false, true⟩⟩]).2.2.1
      ⟨"en.lproj".data, some ⟨[], false, true⟩⟩ ⟨[], false, true⟩
      (List.mem_cons_self _ _) rfl (by decide) (by decide)).1,
   ((C8_errors_contained translations fallbackChars
      [⟨"en.lproj".data, some ⟨[], false, true⟩⟩]).1).trans rfl⟩
